import Mathlib

/-!
Shallow embedding of the Food-Roulette repository (four near-duplicate
JavaScript programs: `app.js`, `booze.js`, and two unnamed variants) and
verification of the frozen claims about it.

Conventions:
* JS numbers that carry exact angle / radius arithmetic are modelled as `ℚ`
  (the spin math uses only field operations, truncation and flooring);
  the haversine-based radius computation, which genuinely needs
  transcendental functions, is modelled over `ℝ`.
* A possibly-missing / possibly-non-finite JS number is an `Option` value
  (`none` stands for `undefined` / `NaN` / `±Infinity`).
* JS `Math.random()` draws are explicit parameters in `[0,1)`.
-/

namespace FoodRoulette

/-- A normalized food-variant place record (`toPlace` in `app.js` /
`part_000`): only the fields the verified logic reads are kept.
`amenity` is `tags.amenity`, `cuisine` is the extracted cuisine list. -/
structure Place where
  id : String
  name : String
  amenity : Option String
  cuisine : List String
deriving DecidableEq, Repr

/-- `dedupeById` from `app.js` lines 41-51 (the same single pass with a
`seen` set is inlined in `booze.js` `loadPlaces` lines 206-210), recursion
on the input list carrying the `seen` set explicitly. -/
def dedupeByIdAux : List Place → List String → List Place
  | [], _ => []
  | p :: rest, seen =>
      if p.id ∈ seen then dedupeByIdAux rest seen
      else p :: dedupeByIdAux rest (p.id :: seen)

/-- `dedupeById(items)`: single pass, `seen` starts empty. -/
def dedupeById (items : List Place) : List Place :=
  dedupeByIdAux items []

/-- First-seen-order deduplication of a string list, the order produced by
JS `Array.from(new Set(t))` (insertion order) and by the `seen`-set pass. -/
def firstSeenDedup : List String → List String → List String
  | [], _ => []
  | s :: rest, seen =>
      if s ∈ seen then firstSeenDedup rest seen
      else s :: firstSeenDedup rest (s :: seen)

/-- JS `toLowerCase()` (over the character list, so that it evaluates by
kernel reduction; Lean's own `String.toLower` is the same map). -/
def strLower (s : String) : String := ⟨s.data.map Char.toLower⟩

/-- JS `trim()`: drop leading and trailing whitespace. -/
def strTrim (s : String) : String :=
  ⟨((s.data.dropWhile Char.isWhitespace).reverse.dropWhile
      Char.isWhitespace).reverse⟩

/-- JS `split(sep)` for a one-character separator. -/
def strSplitOnChar (sep : Char) (s : String) : List String :=
  (s.data.splitOn sep).map (fun cs => ⟨cs⟩)

/-- Does the character list start with `pat`? -/
def startsWith : List Char → List Char → Bool
  | [], _ => true
  | _ :: _, [] => false
  | p :: ps, c :: cs => p = c && startsWith ps cs

/-- Does the character list contain `pat` as a contiguous run? -/
def hasSub (pat : List Char) : List Char → Bool
  | [] => pat.isEmpty
  | c :: cs => startsWith pat (c :: cs) || hasSub pat cs

/-- `extractCuisines(tags)` from `app.js` lines 53-60 / `part_000` lines
63-70: split the raw `cuisine` tag on ";", trim + lower-case each piece,
drop empty pieces.  `raw` is `tags.cuisine || ""`. -/
def extractCuisines (raw : Option String) : List String :=
  ((strSplitOnChar ';' (raw.getD "")).map (fun x => strLower (strTrim x))).filter
    (fun s => s ≠ "")

/-- `collectUniqueCuisines` from `app.js` lines 141-147: the set union of
all places' cuisines, sorted (`localeCompare` modelled as string `≤`).
Set insertion order before sorting is first-seen order. -/
def collectUniqueCuisines (allPlaces : List Place) : List String :=
  (firstSeenDedup (allPlaces.flatMap (fun p => p.cuisine)) []).mergeSort
    (fun a b => a ≤ b)

/-- The per-place predicate of `applyFilters` from `app.js` lines 149-163:
amenity toggles first, then the cuisine rule (a place with cuisines needs
at least one cuisine in `allowed`; a place without cuisines passes). -/
def keepPlace (allowed : List String) (includeFastFood includeCafe : Bool)
    (p : Place) : Bool :=
  if p.amenity = some "fast_food" ∧ includeFastFood = false then false
  else if p.amenity = some "cafe" ∧ includeCafe = false then false
  else if p.cuisine.length > 0 then p.cuisine.any (fun c => c ∈ allowed)
  else true

/-- `applyFilters` from `app.js` lines 149-163 (identical in `part_000`
lines 365-379): `allowed` is `uniqueCuisines` minus the exclusion set and
`currentFiltered` is the filtered `allPlaces`. -/
def applyFilters (allPlaces : List Place) (uniqueCuisines : List String)
    (excludedCuisines : List String) (includeFastFood includeCafe : Bool) :
    List Place :=
  let allowed := uniqueCuisines.filter (fun c => ¬ c ∈ excludedCuisines)
  allPlaces.filter (keepPlace allowed includeFastFood includeCafe)

/-- JS `a || b` on two strings that may come from missing tags: the empty
string (and a missing tag, already collapsed to `""` by `tagStr`) is falsy. -/
def jsOrElse (a b : String) : String := if a = "" then b else a

/-- `String(tag || ...)` head: a missing tag value is the empty string. -/
def tagStr (o : Option String) : String := o.getD ""

/-- JS `s.includes(pat)`: `pat` occurs in `s` as a contiguous substring. -/
def strIncludes (s pat : String) : Bool := hasSub pat.data s.data

namespace Booze

/-- The OSM tag fields read by `collectTypes` / `applyFilters` in
`booze.js` (a missing tag is `none`). -/
structure Tags where
  amenity : Option String := none
  name : Option String := none
  alcohol : Option String := none
  servesAlcohol : Option String := none
  drinkBeer : Option String := none
  drinkWine : Option String := none
  drinkSpirits : Option String := none
  drinkCocktails : Option String := none
  drinkLiquor : Option String := none
  craft : Option String := none
  brewery : Option String := none
  microbrewery : Option String := none
  craftBeer : Option String := none
  taproom : Option String := none
  tapRoom : Option String := none
  breweryType : Option String := none
deriving DecidableEq, Repr

/-- `collectTypes(tags)` from `booze.js` lines 68-94.  The two regular
expression tests on the lower-cased name (`nameSuggestsAlcohol` on line 79
and the `tap ?room|brewery|brewing` test on line 89) are passed in as the
booleans `nameAlc` and `nameBrew`; everything else is computed from the
tags exactly as the source does.  The final `Array.from(new Set(t))`
is the first-seen-order deduplication. -/
def collectTypes (nameAlc nameBrew : Bool) (tags : Tags) : List String :=
  let amenity := tags.amenity
  let t1 : List String :=
    if amenity = some "bar" ∨ amenity = some "pub" ∨
        amenity = some "biergarten" ∨ amenity = some "nightclub" then
      [amenity.getD ""]
    else []
  let alcoholYes :=
    strLower (jsOrElse (tagStr tags.alcohol) (tagStr tags.servesAlcohol))
      = "yes"
  let drinkYes :=
    [tags.drinkBeer, tags.drinkWine, tags.drinkSpirits, tags.drinkCocktails,
      tags.drinkLiquor].any (fun k => strLower (tagStr k) = "yes")
  let t2 : List String :=
    if (amenity = some "restaurant" ∨ amenity = some "cafe") ∧
        (alcoholYes ∨ drinkYes ∨ nameAlc = true) then
      [amenity.getD ""]
    else []
  let craft := strLower (tagStr tags.craft)
  let breweryYes :=
    strLower (jsOrElse (tagStr tags.brewery)
      (jsOrElse (tagStr tags.microbrewery) (tagStr tags.craftBeer))) = "yes"
  let taproomYes :=
    strLower (jsOrElse (tagStr tags.taproom) (tagStr tags.tapRoom)) = "yes"
  let brewpub :=
    strIncludes
      (strLower (jsOrElse (tagStr tags.breweryType) (tagStr tags.brewery)))
      "brewpub"
  let t3 : List String :=
    if craft = "brewery" ∨ breweryYes ∨ taproomYes ∨ brewpub = true ∨
        nameBrew = true then ["brewery"]
    else []
  firstSeenDedup (t1 ++ t2 ++ t3) []

/-- A normalized booze-variant place (`toPlace` in `booze.js`): the `id`,
the raw tags and the derived `types` list. -/
structure BPlace where
  id : String
  name : String
  tags : Tags
  types : List String
deriving DecidableEq, Repr

/-- The raw-tag fallback test of `booze.js` lines 218-220 and 240-241: a
place counts as a bar-like or brewery venue from its raw tags alone. -/
def rawBarLike (p : BPlace) : Bool :=
  p.tags.amenity = some "bar" ∨ p.tags.amenity = some "pub" ∨
    p.tags.amenity = some "biergarten" ∨ p.tags.amenity = some "nightclub"

/-- The raw brewery test of `booze.js` lines 220 and 241. -/
def rawBrewery (p : BPlace) : Bool :=
  p.tags.craft = some "brewery" ∨
    strLower (jsOrElse (tagStr p.tags.brewery) (tagStr p.tags.microbrewery))
      = "yes"

/-- `buildTypesList` from `booze.js` lines 213-224: the union of all
places' types in first-seen order; when that union is empty, a fallback
union from the raw tags; sorted (`localeCompare` modelled as `≤`). -/
def buildTypesList (allPlaces : List BPlace) : List String :=
  let s := firstSeenDedup (allPlaces.flatMap (fun p => p.types)) []
  let s2 :=
    if s.length = 0 then
      firstSeenDedup
        (allPlaces.flatMap (fun p =>
          (if rawBarLike p then [tagStr p.tags.amenity] else []) ++
            (if rawBrewery p then ["brewery"] else []))) []
    else s
  s2.mergeSort (fun a b => a ≤ b)

/-- `applyFilters` from `booze.js` lines 236-249: when `uniqueTypes` is
empty, fall back to raw-tag filtering; otherwise keep a place iff one of
its types is in `allowed` (so a place with an empty `types` list is
dropped). -/
def applyFilters (allPlaces : List BPlace) (uniqueTypes : List String)
    (excludedTypes : List String) : List BPlace :=
  let allowed := uniqueTypes.filter (fun t => ¬ t ∈ excludedTypes)
  if uniqueTypes.length = 0 then
    allPlaces.filter (fun p => rawBarLike p ∨ rawBrewery p)
  else
    allPlaces.filter (fun p => p.types.any (fun t => t ∈ allowed))

end Booze

/-! ## Venue fetch with mirror fallback (`fetchOverpass`, `booze.js`
lines 156-196 and `part_001` lines 126-165) -/

/-- One mirror's response to one query: a transport failure (non-`ok`
status or thrown error, carrying an error code) or a successful JSON
response with its `elements` list (elements abstracted as numbers). -/
inductive FetchResp where
  | fail (code : ℕ)
  | ok (elems : List ℕ)
deriving DecidableEq, Repr

/-- One pass of the fallback loop (`booze.js` lines 163-178 resp.
180-194): walk the mirror responses in order, return the first
transport-successful response with a non-empty `elements` list; a
failure updates `lastErr`; an empty success changes nothing. -/
def passLoop : List FetchResp → Option ℕ → Option (List ℕ) × Option ℕ
  | [], lastErr => (none, lastErr)
  | .fail e :: rest, _ => passLoop rest (some e)
  | .ok es :: rest, lastErr =>
      if es.isEmpty then passLoop rest lastErr else (some es, lastErr)

/-- `fetchOverpass` from `booze.js` lines 156-196: first pass with the
broad query, second pass (same mirrors, carrying `lastErr` over) with the
bars-only query; if both are exhausted, throw `lastErr` (the error value
`none` stands for the fresh `"Overpass returned no elements"` error used
when no transport error was observed).  `fetchFallbackPass` is the second
(bars-only) tier. -/
def fetchFallbackPass (bars : List FetchResp) (l1 : Option ℕ) :
    Except (Option ℕ) (List ℕ) :=
  match passLoop bars l1 with
  | (some es, _) => .ok es
  | (none, l2) => .error l2

/-- The two-tier loop itself: broad pass first, then the bars-only pass
carrying the last error over. -/
def fetchOverpass (broad bars : List FetchResp) :
    Except (Option ℕ) (List ℕ) :=
  match passLoop broad none with
  | (some es, _) => .ok es
  | (none, l1) => fetchFallbackPass bars l1

/-- The first transport-successful, non-empty response of a sequence. -/
def firstSuccess (rs : List FetchResp) : Option (List ℕ) :=
  rs.findSome? fun r =>
    match r with
    | .ok es => if es.isEmpty then none else some es
    | .fail _ => none

/-- The last transport error observed in a sequence of responses (a later
error shadows an earlier one; empty successes contribute nothing). -/
def lastError : List FetchResp → Option ℕ
  | [] => none
  | .fail e :: rest => (lastError rest).or (some e)
  | .ok _ :: rest => lastError rest

/-- The mirror loop of `fetchPlaces`, `app.js` lines 105-117 (identical
protocol in `part_000` lines 146-159): walk the mirrors in order; a
thrown error (non-`ok` status or parse failure) updates `lastErr`; the
FIRST transport-successful response is accepted and the loop breaks —
its `elements` list is used even when empty.  After the loop, if no
response was accepted, `lastErr` is thrown (`none` stands for the fresh
`"Overpass failed"` error when no transport error was observed). -/
def fetchPlacesLoop : List FetchResp → Option ℕ → Except (Option ℕ) (List ℕ)
  | [], lastErr => .error lastErr
  | .fail e :: rest, _ => fetchPlacesLoop rest (some e)
  | .ok es :: _, _ => .ok es

/-- `fetchPlaces` of `app.js` lines 101-128: one pass, one query (no
narrower-query retry), `lastErr` starts empty. -/
def fetchPlaces (responses : List FetchResp) : Except (Option ℕ) (List ℕ) :=
  fetchPlacesLoop responses none

/-- The first transport-successful response of a sequence, regardless of
whether its element list is empty. -/
def firstTransportSuccess (rs : List FetchResp) : Option (List ℕ) :=
  rs.findSome? fun r =>
    match r with
    | .ok es => some es
    | .fail _ => none

/-! ## Spin math (ℚ model of the wheel rotation arithmetic) -/

/-- Truncation toward zero, the rounding used by the JS `%` operator. -/
def ratTrunc (x : ℚ) : ℤ := if 0 ≤ x then ⌊x⌋ else ⌈x⌉

/-- The JS remainder `x % m` (sign follows the dividend). -/
def jsRem (x m : ℚ) : ℚ := x - m * ratTrunc (x / m)

/-- The normalization idiom `((x % 360) + 360) % 360` used throughout the
spin code; lands in `[0, 360)`. -/
def jsNormalize (x : ℚ) : ℚ := jsRem (jsRem x 360 + 360) 360

/-- `MAX_VISUAL_SLICES` from `booze.js` / `part_000`. -/
def MAX_VISUAL_SLICES : ℕ := 200

/-- The mutable state the spin code reads and writes: the current
filtered list, `accumulatedRotation` (degrees) and the `isSpinning`
re-entrancy guard. -/
structure WheelState (P : Type) where
  filtered : List P
  acc : ℚ
  isSpinning : Bool

/-- The three `Math.random()` draws of one compressed-variant spin, in
program order: winner draw, offset-within-slice draw, extra-spins draw. -/
structure SpinRand where
  rWin : ℚ
  rOff : ℚ
  rSpins : ℚ

/-- `Math.floor(Math.random() * n)`: the preselected winner index. -/
def chosenIndexOf (r : ℚ) (n : ℕ) : ℕ := (⌊r * (n : ℚ)⌋).toNat

/-- `spinWheel` from `booze.js` lines 288-311 (identically `part_000`
lines 435-468), modelled as one completed spin: the guard clauses, the
uniform winner draw, the visual-slice mapping, the offset computation and
the rotation update; the returned state is the state after the animation
timer has fired (`isSpinning` back to `false`) and the returned value is
the revealed winner. -/
def spinWheel (cap : ℕ) (st : WheelState P) (rnd : SpinRand) :
    WheelState P × Option P :=
  if st.isSpinning = true then (st, none)
  else if st.filtered.length = 0 then (st, none)
  else
    let n := st.filtered.length
    let visualCount := min n cap
    let sliceAngle : ℚ := 360 / (visualCount : ℚ)
    let chosenIndex := chosenIndexOf rnd.rWin n
    let chosen := st.filtered[chosenIndex]?
    let visualIndex := chosenIndex * visualCount / n
    let targetNormalized :=
      (visualIndex : ℚ) * sliceAngle + rnd.rOff * sliceAngle
    let currentNormalized := jsNormalize (-st.acc + 90)
    let offset := jsNormalize (currentNormalized - targetNormalized)
    let extraSpins : ℕ := 4 + (⌊rnd.rSpins * 4⌋).toNat
    let finalRotation := st.acc + (extraSpins : ℚ) * 360 + offset
    ({ filtered := st.filtered, acc := finalRotation, isSpinning := false },
      chosen)

/-- The rotation-decoding of `app.js` lines 238-239 / `part_001` lines
255-256: `Math.floor(normalized / sliceAngle) % n` with
`sliceAngle = 360 / n`. -/
def decodeIndex (rotation : ℚ) (n : ℕ) : ℕ :=
  (⌊jsNormalize (-rotation + 90) / (360 / (n : ℚ))⌋).toNat % n

/-- `spinWheel` from `app.js` lines 216-243 (identically `part_001` lines
241-259), the non-compressed variant: random final rotation, winner
decoded from the rotation.  `r1` is the extra-spins draw, `r2` the
random-fraction draw (program order). -/
def spinWheelSimple (st : WheelState P) (r1 r2 : ℚ) :
    WheelState P × Option P :=
  if st.isSpinning = true then (st, none)
  else if st.filtered.length = 0 then (st, none)
  else
    let n := st.filtered.length
    let extraSpins : ℕ := 4 + (⌊r1 * 4⌋).toNat
    let randomPart := r2 * 360
    let finalRotation := st.acc + (extraSpins : ℚ) * 360 + randomPart
    let index := decodeIndex finalRotation n
    ({ filtered := st.filtered, acc := finalRotation, isSpinning := false },
      st.filtered[index]?)

/-- The state effect of a filter change (`applyFilters` in `app.js` lines
149-169 writes only `currentFiltered`; `accumulatedRotation` is
untouched). -/
def applyFiltersState (st : WheelState Place) (allPlaces : List Place)
    (uniqueCuisines excludedCuisines : List String)
    (includeFastFood includeCafe : Bool) : WheelState Place :=
  { st with
    filtered :=
      applyFilters allPlaces uniqueCuisines excludedCuisines includeFastFood
        includeCafe }

/-- The state effect of `initialize` (`app.js` lines 324-342, also run by
the Reload button): replace the place list with the fresh fetch, clear the
exclusions and re-filter; `accumulatedRotation` is untouched. -/
def initializeState (fetched : List Place)
    (includeFastFood includeCafe : Bool) (st : WheelState Place) :
    WheelState Place :=
  { st with
    filtered :=
      applyFilters fetched (collectUniqueCuisines fetched) []
        includeFastFood includeCafe }

/-! ## Search radius (`computeSearchRadiusMeters`, `booze.js` lines
106-122 and `part_000` lines 108-125) -/

/-- A bounding box whose four edges may each be missing / non-finite
(`parseFloat` of a bad value gives `NaN`, modelled as `none`). -/
structure Bbox where
  south : Option ℚ
  west : Option ℚ
  north : Option ℚ
  east : Option ℚ
deriving DecidableEq, Repr

/-- The shared body of `computeSearchRadiusMeters`, parameterized by the
distance function `d` (the haversine `haversineDistanceMeters`, which is
transcendental, enters only through its four values here) and by the
variant's fixed default radius (`12000` in `booze.js`, `9000` in
`part_000`).  `none` inputs model missing / non-finite numbers, on which
the code returns the default before any distance is computed. -/
def computeSearchRadiusWith (defaultR : ℚ) (d : ℚ → ℚ → ℚ → ℚ → ℚ)
    (bbox : Option Bbox) (lat lon : Option ℚ) : ℚ :=
  match bbox, lat, lon with
  | some bb, some la, some lo =>
      match bb.south, bb.west, bb.north, bb.east with
      | some s, some w, some n, some e =>
          let dNorth := d la lo n lo
          let dSouth := d la lo s lo
          let dEast := d la lo la e
          let dWest := d la lo la w
          let r := max (max dNorth dSouth) (max dEast dWest) * (21 / 20)
          let r2 := if r ≤ 0 then defaultR else r
          max 2500 (min 30000 r2)
      | _, _, _, _ => defaultR
  | _, _, _ => defaultR

namespace Booze

/-- `computeSearchRadiusMeters` of `booze.js` (default 12000). -/
def computeSearchRadiusMeters (d : ℚ → ℚ → ℚ → ℚ → ℚ)
    (bbox : Option Bbox) (lat lon : Option ℚ) : ℚ :=
  computeSearchRadiusWith 12000 d bbox lat lon

end Booze

namespace FoodUS

/-- `computeSearchRadiusMeters` of `part_000` (default 9000). -/
def computeSearchRadiusMeters (d : ℚ → ℚ → ℚ → ℚ → ℚ)
    (bbox : Option Bbox) (lat lon : Option ℚ) : ℚ :=
  computeSearchRadiusWith 9000 d bbox lat lon

end FoodUS

/-- JS `Math.atan2(y, x)`. -/
noncomputable def atan2 (y x : ℝ) : ℝ :=
  if 0 < x then Real.arctan (y / x)
  else if x < 0 ∧ 0 ≤ y then Real.arctan (y / x) + Real.pi
  else if x < 0 ∧ y < 0 then Real.arctan (y / x) - Real.pi
  else if x = 0 ∧ 0 < y then Real.pi / 2
  else if x = 0 ∧ y < 0 then -(Real.pi / 2)
  else 0

/-- `haversineDistanceMeters` from `booze.js` lines 96-104 / `part_000`
lines 98-106, over ℝ (exact real arithmetic in place of floats). -/
noncomputable def haversineDistanceMeters (lat1 lon1 lat2 lon2 : ℝ) : ℝ :=
  let R : ℝ := 6371000
  let toRad : ℝ → ℝ := fun degr => degr * Real.pi / 180
  let dLat := toRad (lat2 - lat1)
  let dLon := toRad (lon2 - lon1)
  let a :=
    Real.sin (dLat / 2) * Real.sin (dLat / 2) +
      Real.cos (toRad lat1) * Real.cos (toRad lat2) *
        (Real.sin (dLon / 2) * Real.sin (dLon / 2))
  let c := 2 * atan2 (Real.sqrt a) (Real.sqrt (1 - a))
  R * c

/-- `computeSearchRadiusMeters` of `booze.js` with the actual haversine
distance plugged in, over ℝ: the finite-inputs branch of the source
(`booze.js` lines 108-121). -/
noncomputable def computeSearchRadiusMetersReal (s w n e la lo : ℝ) : ℝ :=
  let dNorth := haversineDistanceMeters la lo n lo
  let dSouth := haversineDistanceMeters la lo s lo
  let dEast := haversineDistanceMeters la lo la e
  let dWest := haversineDistanceMeters la lo la w
  let r := max (max dNorth dSouth) (max dEast dWest) * 1.05
  let r2 := if r ≤ 0 then (12000 : ℝ) else r
  max 2500 (min 30000 r2)

/-- A booze-variant place whose tags yield the single type `bar`. -/
def exBar : Booze.BPlace :=
  { id := "node/1", name := "Bar", tags := { amenity := some "bar" },
    types := ["bar"] }

/-- A booze-variant place with no recognizable type (zero categories). -/
def exNoType : Booze.BPlace :=
  { id := "node/2", name := "Plain", tags := {}, types := [] }

/-- A food-variant place with no cuisine tags. -/
def plainPlace : Place :=
  { id := "node/1", name := "A", amenity := some "restaurant",
    cuisine := [] }

/-- All radius inputs present and finite (the `Number.isFinite` guards on
`booze.js` lines 107 and 112 / `part_000` lines 109 and 114). -/
def finiteInputs (bbox : Option Bbox) (lat lon : Option ℚ) : Bool :=
  match bbox, lat, lon with
  | some ⟨some _, some _, some _, some _⟩, some _, some _ => true
  | _, _, _ => false

/-! ## Arithmetic facts about the normalization idiom -/

theorem jsRem360_bounds (x : ℚ) :
    -360 < jsRem x 360 ∧ jsRem x 360 < 360 ∧ (0 ≤ x → 0 ≤ jsRem x 360) := by
  unfold jsRem ratTrunc
  have h360 : (360 : ℚ) * (x / 360) = x := by ring
  by_cases h : 0 ≤ x / 360
  · rw [if_pos h]
    have h1 : ((⌊x / 360⌋ : ℤ) : ℚ) ≤ x / 360 := Int.floor_le _
    have h2 : x / 360 < (⌊x / 360⌋ : ℚ) + 1 := Int.lt_floor_add_one _
    refine ⟨by nlinarith, by nlinarith, fun _ => by nlinarith⟩
  · rw [if_neg h]
    push_neg at h
    have h1 : x / 360 ≤ ((⌈x / 360⌉ : ℤ) : ℚ) := Int.le_ceil _
    have h2 : ((⌈x / 360⌉ : ℤ) : ℚ) < x / 360 + 1 := Int.ceil_lt_add_one _
    refine ⟨by nlinarith, by nlinarith, fun hx => by nlinarith⟩

theorem jsNormalize_mem (x : ℚ) : 0 ≤ jsNormalize x ∧ jsNormalize x < 360 := by
  unfold jsNormalize
  obtain ⟨ha, hb, hc⟩ := jsRem360_bounds x
  obtain ⟨hd, he, hf⟩ := jsRem360_bounds (jsRem x 360 + 360)
  exact ⟨hf (by linarith), he⟩

theorem jsNormalize_sub (x : ℚ) : ∃ k : ℤ, jsNormalize x - x = 360 * k := by
  refine ⟨1 - ratTrunc (x / 360) -
    ratTrunc ((jsRem x 360 + 360) / 360), ?_⟩
  unfold jsNormalize jsRem
  push_cast
  ring

theorem eq_of_sub_int_mul {a b : ℚ} {k : ℤ} (ha0 : 0 ≤ a) (ha1 : a < 360)
    (hb0 : 0 ≤ b) (hb1 : b < 360) (h : a - b = 360 * k) : a = b := by
  have hk1 : (k : ℚ) < 1 := by nlinarith
  have hk2 : (-1 : ℚ) < (k : ℚ) := by nlinarith
  have hk3 : k < 1 := by exact_mod_cast hk1
  have hk4 : (-1 : ℤ) < k := by exact_mod_cast hk2
  have hk0 : k = 0 := by omega
  subst hk0
  push_cast at h
  linarith

theorem jsNormalize_congr {x y : ℚ} (k : ℤ) (h : x - y = 360 * k) :
    jsNormalize x = jsNormalize y := by
  obtain ⟨k1, h1⟩ := jsNormalize_sub x
  obtain ⟨k2, h2⟩ := jsNormalize_sub y
  obtain ⟨a1, a2⟩ := jsNormalize_mem x
  obtain ⟨b1, b2⟩ := jsNormalize_mem y
  refine eq_of_sub_int_mul a1 a2 b1 b2 (k := k1 + k - k2) ?_
  push_cast
  linarith

theorem jsNormalize_eq_self {x : ℚ} (h0 : 0 ≤ x) (h1 : x < 360) :
    jsNormalize x = x := by
  obtain ⟨k, hk⟩ := jsNormalize_sub x
  obtain ⟨a1, a2⟩ := jsNormalize_mem x
  exact eq_of_sub_int_mul a1 a2 h0 h1 hk

/-! ## Facts about the first-seen deduplication passes -/

theorem dedupeByIdAux_sublist :
    ∀ (l : List Place) (seen : List String),
      List.Sublist (dedupeByIdAux l seen) l
  | [], _ => List.Sublist.refl _
  | p :: rest, seen => by
      unfold dedupeByIdAux
      by_cases h : p.id ∈ seen
      · rw [if_pos h]
        exact (dedupeByIdAux_sublist rest seen).cons p
      · rw [if_neg h]
        exact (dedupeByIdAux_sublist rest (p.id :: seen)).cons₂ p

theorem dedupeByIdAux_id_not_mem :
    ∀ (l : List Place) (seen : List String) (p : Place),
      p ∈ dedupeByIdAux l seen → p.id ∉ seen
  | [], _, _ => by simp [dedupeByIdAux]
  | q :: rest, seen, p => by
      unfold dedupeByIdAux
      by_cases h : q.id ∈ seen
      · rw [if_pos h]
        exact dedupeByIdAux_id_not_mem rest seen p
      · rw [if_neg h]
        intro hp
        rcases List.mem_cons.mp hp with hq | hq
        · subst hq; exact h
        · have := dedupeByIdAux_id_not_mem rest (q.id :: seen) p hq
          intro hs
          exact this (List.mem_cons_of_mem _ hs)

theorem dedupeByIdAux_pairwise :
    ∀ (l : List Place) (seen : List String),
      (dedupeByIdAux l seen).Pairwise (fun a b => a.id ≠ b.id)
  | [], _ => List.Pairwise.nil
  | q :: rest, seen => by
      unfold dedupeByIdAux
      by_cases h : q.id ∈ seen
      · rw [if_pos h]
        exact dedupeByIdAux_pairwise rest seen
      · rw [if_neg h]
        refine List.Pairwise.cons ?_ (dedupeByIdAux_pairwise rest (q.id :: seen))
        intro p hp hpq
        have := dedupeByIdAux_id_not_mem rest (q.id :: seen) p hp
        exact this (by rw [← hpq]; exact List.mem_cons_self _ _)

theorem dedupeByIdAux_map_id :
    ∀ (l : List Place) (seen : List String),
      (dedupeByIdAux l seen).map (fun p => p.id) =
        firstSeenDedup (l.map (fun p => p.id)) seen
  | [], _ => rfl
  | q :: rest, seen => by
      by_cases h : q.id ∈ seen
      · simp only [dedupeByIdAux, firstSeenDedup, List.map_cons, if_pos h]
        exact dedupeByIdAux_map_id rest seen
      · simp only [dedupeByIdAux, firstSeenDedup, List.map_cons, if_neg h]
        rw [dedupeByIdAux_map_id rest (q.id :: seen)]

theorem firstSeenDedup_not_mem :
    ∀ (l seen : List String) (s : String),
      s ∈ firstSeenDedup l seen → s ∉ seen
  | [], _, _ => by simp [firstSeenDedup]
  | t :: rest, seen, s => by
      unfold firstSeenDedup
      by_cases h : t ∈ seen
      · rw [if_pos h]
        exact firstSeenDedup_not_mem rest seen s
      · rw [if_neg h]
        intro hs
        rcases List.mem_cons.mp hs with ht | ht
        · subst ht; exact h
        · have := firstSeenDedup_not_mem rest (t :: seen) s ht
          intro hmem
          exact this (List.mem_cons_of_mem _ hmem)

theorem firstSeenDedup_nodup :
    ∀ (l seen : List String), (firstSeenDedup l seen).Nodup
  | [], _ => List.Pairwise.nil
  | t :: rest, seen => by
      unfold firstSeenDedup
      by_cases h : t ∈ seen
      · rw [if_pos h]
        exact firstSeenDedup_nodup rest seen
      · rw [if_neg h]
        refine List.Pairwise.cons ?_ (firstSeenDedup_nodup rest (t :: seen))
        intro s hs hts
        have := firstSeenDedup_not_mem rest (t :: seen) s hs
        exact this (by rw [← hts]; exact List.mem_cons_self _ _)

/-! ## Facts about the fetch fallback loop -/

theorem passLoop_fst :
    ∀ (rs : List FetchResp) (last : Option ℕ),
      (passLoop rs last).1 = firstSuccess rs
  | [], _ => rfl
  | .fail e :: rest, last => by
      simp only [passLoop, firstSuccess, List.findSome?_cons]
      exact passLoop_fst rest (some e)
  | .ok es :: rest, last => by
      by_cases h : es.isEmpty
      · simp only [passLoop, firstSuccess, List.findSome?_cons, if_pos h]
        exact passLoop_fst rest last
      · simp only [passLoop, firstSuccess, List.findSome?_cons, if_neg h]

theorem passLoop_snd :
    ∀ (rs : List FetchResp) (last : Option ℕ),
      firstSuccess rs = none →
        (passLoop rs last).2 = (lastError rs).or last
  | [], last => by simp [passLoop, lastError]
  | .fail e :: rest, last => by
      intro h
      simp only [firstSuccess, List.findSome?_cons] at h
      simp only [passLoop, lastError]
      rw [passLoop_snd rest (some e) h, Option.or_assoc, Option.or_some]
  | .ok es :: rest, last => by
      intro h
      simp only [firstSuccess, List.findSome?_cons] at h
      by_cases he : es.isEmpty
      · rw [if_pos he] at h
        simp only [passLoop, if_pos he, lastError]
        exact passLoop_snd rest last h
      · rw [if_neg he] at h
        exact absurd h (by simp)

theorem firstSuccess_append (l1 l2 : List FetchResp) :
    firstSuccess (l1 ++ l2) = (firstSuccess l1).or (firstSuccess l2) := by
  induction l1 with
  | nil => simp [firstSuccess]
  | cons r rest ih =>
      cases r with
      | fail e =>
          simp only [List.cons_append, firstSuccess, List.findSome?_cons]
          exact ih
      | ok es =>
          by_cases h : es.isEmpty
          · simp only [List.cons_append, firstSuccess, List.findSome?_cons,
              if_pos h]
            exact ih
          · simp only [List.cons_append, firstSuccess, List.findSome?_cons,
              if_neg h, Option.or_some]

theorem lastError_append (l1 l2 : List FetchResp) :
    lastError (l1 ++ l2) = (lastError l2).or (lastError l1) := by
  induction l1 with
  | nil => simp [lastError]
  | cons r rest ih =>
      cases r with
      | fail e =>
          simp only [List.cons_append, lastError, List.append_eq]
          rw [ih, Option.or_assoc]
      | ok es =>
          simp only [List.cons_append, lastError, List.append_eq]
          exact ih

/-! ## Case-normalization and membership lemmas -/

theorem char_toLower_idem (c : Char) : c.toLower.toLower = c.toLower := by
  unfold Char.toLower
  by_cases h : c.toNat ≥ 65 ∧ c.toNat ≤ 90
  · rw [if_pos h]
    have hv : (c.toNat + 32).isValidChar := Or.inl (by omega)
    have ht : (Char.ofNat (c.toNat + 32)).toNat = c.toNat + 32 := by
      rw [Char.ofNat, dif_pos hv]
      rfl
    rw [if_neg (by omega)]
  · rw [if_neg h, if_neg h]

theorem strLower_idem (s : String) : strLower (strLower s) = strLower s := by
  show (⟨(s.data.map Char.toLower).map Char.toLower⟩ : String) =
    ⟨s.data.map Char.toLower⟩
  congr 1
  rw [List.map_map]
  exact List.map_congr_left fun c _ => char_toLower_idem c

theorem mem_firstSeenDedup :
    ∀ (l seen : List String) (s : String),
      s ∈ firstSeenDedup l seen ↔ s ∈ l ∧ s ∉ seen
  | [], _, s => by simp [firstSeenDedup]
  | t :: rest, seen, s => by
      by_cases h : t ∈ seen
      · simp only [firstSeenDedup, if_pos h, mem_firstSeenDedup rest seen s,
          List.mem_cons]
        constructor
        · rintro ⟨hr, hs⟩
          exact ⟨Or.inr hr, hs⟩
        · rintro ⟨hl, hs⟩
          rcases hl with rfl | hr
          · exact absurd h hs
          · exact ⟨hr, hs⟩
      · simp only [firstSeenDedup, if_neg h, List.mem_cons,
          mem_firstSeenDedup rest (t :: seen) s]
        constructor
        · rintro (rfl | ⟨hr, hs⟩)
          · exact ⟨Or.inl rfl, h⟩
          · simp only [List.mem_cons, not_or] at hs
            exact ⟨Or.inr hr, hs.2⟩
        · rintro ⟨hl, hs⟩
          by_cases hst : s = t
          · exact Or.inl hst
          · rcases hl with rfl | hr
            · exact Or.inl rfl
            · refine Or.inr ⟨hr, ?_⟩
              simp only [List.mem_cons, not_or]
              exact ⟨hst, hs⟩

theorem mem_collectUniqueCuisines (places : List Place) (c : String) :
    c ∈ collectUniqueCuisines places ↔ ∃ p ∈ places, c ∈ p.cuisine := by
  unfold collectUniqueCuisines
  rw [List.Perm.mem_iff (List.mergeSort_perm _ _), mem_firstSeenDedup]
  simp [List.mem_flatMap]

/-! ## Claim theorems -/

/-- **C7**: for every fetched element list, deduplication is a single pass
preserving first-seen order keyed by the id (the deduplicated list is a
sublist of the input whose id sequence is the first-seen deduplication of
the input's id sequence), silently dropping later duplicates, so the
resulting venue list contains no two entries with equal id. -/
theorem dedupeById_first_seen_nodup (l : List Place) :
    List.Sublist (dedupeById l) l ∧
    (dedupeById l).Pairwise (fun a b => a.id ≠ b.id) ∧
    (dedupeById l).map (fun p => p.id) =
      firstSeenDedup (l.map (fun p => p.id)) [] :=
  ⟨dedupeByIdAux_sublist l [], dedupeByIdAux_pairwise l [],
    dedupeByIdAux_map_id l []⟩

/-- **C3**: the venue fetch returns the first response over the broad
pass followed by the narrow pass that is both transport-successful and
non-empty; it fails only when both passes are exhausted, and then raises
the last observed error (`none` = the fresh fallback error when no
transport error was observed). -/
theorem fetchOverpass_first_nonempty_success (broad bars : List FetchResp) :
    fetchOverpass broad bars =
      match firstSuccess (broad ++ bars) with
      | some es => Except.ok es
      | none => Except.error (lastError (broad ++ bars)) := by
  unfold fetchOverpass
  rcases hpb : passLoop broad none with ⟨fst1, snd1⟩
  have hf1 : firstSuccess broad = fst1 := by
    rw [← passLoop_fst broad none, hpb]
  cases fst1 with
  | some es =>
      rw [firstSuccess_append, hf1]
      rfl
  | none =>
      have hs1 : snd1 = (lastError broad).or none := by
        rw [← passLoop_snd broad none hf1, hpb]
      show fetchFallbackPass bars snd1 = _
      unfold fetchFallbackPass
      rcases hpb2 : passLoop bars snd1 with ⟨fst2, snd2⟩
      have hf2 : firstSuccess bars = fst2 := by
        rw [← passLoop_fst bars snd1, hpb2]
      cases fst2 with
      | some es =>
          rw [firstSuccess_append, hf1, hf2]
          rfl
      | none =>
          have hs2 : snd2 = (lastError bars).or snd1 := by
            rw [← passLoop_snd bars snd1 hf2, hpb2]
          rw [firstSuccess_append, hf1, hf2]
          show Except.error snd2 = Except.error (lastError (broad ++ bars))
          rw [lastError_append, hs2, hs1, Option.or_none]

theorem fetchPlacesLoop_spec :
    ∀ (rs : List FetchResp) (last : Option ℕ),
      fetchPlacesLoop rs last =
        match firstTransportSuccess rs with
        | some es => Except.ok es
        | none => Except.error ((lastError rs).or last)
  | [], last => by simp [fetchPlacesLoop, firstTransportSuccess, lastError]
  | .fail e :: rest, last => by
      have h1 : fetchPlacesLoop (FetchResp.fail e :: rest) last
          = fetchPlacesLoop rest (some e) := rfl
      have h2 : firstTransportSuccess (FetchResp.fail e :: rest)
          = firstTransportSuccess rest := by
        simp [firstTransportSuccess, List.findSome?_cons]
      have h3 : lastError (FetchResp.fail e :: rest)
          = (lastError rest).or (some e) := rfl
      rw [h1, fetchPlacesLoop_spec rest (some e), h2, h3]
      cases firstTransportSuccess rest with
      | some es => rfl
      | none => rw [Option.or_assoc, Option.or_some]
  | .ok es :: rest, last => by
      have h1 : fetchPlacesLoop (FetchResp.ok es :: rest) last
          = Except.ok es := rfl
      have h2 : firstTransportSuccess (FetchResp.ok es :: rest)
          = some es := by
        simp [firstTransportSuccess, List.findSome?_cons]
      rw [h1, h2]

/-- **C3 (counterexample)**: the cited `app.js` `fetchPlaces` does NOT
skip empty successes and has no second pass: with mirror responses
`[ok [], ok [5]]` it returns the empty element list from the first
mirror, although the claimed protocol ("first response that is both
transport-successful and contains at least one element") would return
`[5]` from the second. -/
theorem fetchPlaces_accepts_empty :
    fetchPlaces [FetchResp.ok [], FetchResp.ok [5]] = Except.ok [] ∧
    firstSuccess [FetchResp.ok [], FetchResp.ok [5]] = some [5] :=
  ⟨rfl, rfl⟩

/-- **C3 (amended)**: in the booze variants (`booze.js` / `part_001`),
`fetchOverpass` returns the first response over the broad pass followed
by the narrow (bars-only) pass that is both transport-successful and
non-empty, and fails — raising the last observed error — only when both
passes are exhausted.  In the food variants (`app.js` / `part_000`),
`fetchPlaces` accepts the FIRST transport-successful response even when
its element list is empty, performs a single pass with a single query
(no narrower retry), and fails — raising the last observed error — only
when every mirror fails transport. -/
theorem fetch_protocol_spec :
    (∀ broad bars : List FetchResp,
        fetchOverpass broad bars =
          match firstSuccess (broad ++ bars) with
          | some es => Except.ok es
          | none => Except.error (lastError (broad ++ bars))) ∧
    (∀ responses : List FetchResp,
        fetchPlaces responses =
          match firstTransportSuccess responses with
          | some es => Except.ok es
          | none => Except.error (lastError responses)) := by
  constructor
  · exact fetchOverpass_first_nonempty_success
  · intro responses
    rw [fetchPlaces, fetchPlacesLoop_spec responses none]
    cases firstTransportSuccess responses with
    | some es => rfl
    | none => rw [Option.or_none]

/-! ## Filtering rule (C2, C5) -/

theorem keepPlace_iff (allowed : List String) (ff cf : Bool) (p : Place) :
    keepPlace allowed ff cf p = true ↔
      ¬(p.amenity = some "fast_food" ∧ ff = false) ∧
        ¬(p.amenity = some "cafe" ∧ cf = false) ∧
        (p.cuisine = [] ∨ ∃ c ∈ p.cuisine, c ∈ allowed) := by
  unfold keepPlace
  by_cases h1 : p.amenity = some "fast_food" ∧ ff = false
  · rw [if_pos h1]
    simp [h1]
  · rw [if_neg h1]
    by_cases h2 : p.amenity = some "cafe" ∧ cf = false
    · rw [if_pos h2]
      simp [h1, h2]
    · rw [if_neg h2]
      by_cases h3 : p.cuisine.length > 0
      · rw [if_pos h3]
        have hne : p.cuisine ≠ [] := by
          intro h
          rw [h] at h3
          exact absurd h3 (by simp)
        simp [h1, h2, hne, List.any_eq_true]
      · rw [if_neg h3]
        have hnil : p.cuisine = [] := List.length_eq_zero.mp (by omega)
        simp [h1, h2, hnil]

theorem mem_applyFilters (places : List Place)
    (uniq excl : List String) (ff cf : Bool) (p : Place) :
    p ∈ applyFilters places uniq excl ff cf ↔
      p ∈ places ∧
        keepPlace (uniq.filter (fun c => ¬ c ∈ excl)) ff cf p = true := by
  unfold applyFilters
  exact List.mem_filter

theorem mem_buildTypesList_of {bplaces : List Booze.BPlace}
    {q : Booze.BPlace} {t : String} (hq : q ∈ bplaces) (ht : t ∈ q.types) :
    t ∈ Booze.buildTypesList bplaces := by
  unfold Booze.buildTypesList
  have hflat : t ∈ bplaces.flatMap (fun p => p.types) :=
    List.mem_flatMap.mpr ⟨q, hq, ht⟩
  have hs : t ∈ firstSeenDedup (bplaces.flatMap (fun p => p.types)) [] :=
    (mem_firstSeenDedup _ _ _).mpr ⟨hflat, by simp⟩
  have hlen : (firstSeenDedup (bplaces.flatMap (fun p => p.types)) []).length
      ≠ 0 := by
    intro h
    rw [List.length_eq_zero] at h
    rw [h] at hs
    exact absurd hs (by simp)
  rw [List.Perm.mem_iff (List.mergeSort_perm _ _)]
  simp only [if_neg hlen]
  exact hs

theorem boozeApplyFilters_keep (bplaces : List Booze.BPlace)
    (exclT : List String) (q : Booze.BPlace) (hq : q ∈ bplaces)
    (hne : Booze.buildTypesList bplaces ≠ []) :
    q ∈ Booze.applyFilters bplaces (Booze.buildTypesList bplaces) exclT ↔
      ∃ t ∈ q.types, ¬ t ∈ exclT := by
  unfold Booze.applyFilters
  rw [if_neg (by
    intro h
    exact hne (List.length_eq_zero.mp h))]
  rw [List.mem_filter]
  constructor
  · rintro ⟨-, hany⟩
    rw [List.any_eq_true] at hany
    obtain ⟨t, ht, hta⟩ := hany
    rw [decide_eq_true_eq, List.mem_filter, decide_eq_true_eq] at hta
    exact ⟨t, ht, hta.2⟩
  · rintro ⟨t, ht, hte⟩
    refine ⟨hq, List.any_eq_true.mpr ⟨t, ht, ?_⟩⟩
    rw [decide_eq_true_eq, List.mem_filter, decide_eq_true_eq]
    exact ⟨mem_buildTypesList_of hq ht, hte⟩

/-- **C2 (amended)**: in the food variants, after the coarse amenity
toggles, a venue with one or more cuisines is kept iff at least one of
its cuisines is not excluded, and a venue with zero cuisines is kept
unconditionally; in the booze variant's `applyFilters` (when the unique
type list is non-empty), a venue is kept iff at least one of its types is
not excluded — so a venue with zero types is dropped, not kept. -/
theorem applyFilters_category_rule :
    (∀ (places : List Place) (excl : List String) (ff cf : Bool) (p : Place),
        p ∈ places →
        ¬(p.amenity = some "fast_food" ∧ ff = false) →
        ¬(p.amenity = some "cafe" ∧ cf = false) →
        (p ∈ applyFilters places (collectUniqueCuisines places) excl ff cf ↔
          (p.cuisine = [] ∨ ∃ c ∈ p.cuisine, ¬ c ∈ excl))) ∧
    (∀ (bplaces : List Booze.BPlace) (exclT : List String)
        (q : Booze.BPlace),
        q ∈ bplaces → Booze.buildTypesList bplaces ≠ [] →
        (q ∈ Booze.applyFilters bplaces (Booze.buildTypesList bplaces) exclT
          ↔ ∃ t ∈ q.types, ¬ t ∈ exclT)) := by
  constructor
  · intro places excl ff cf p hp hff hcf
    rw [mem_applyFilters, keepPlace_iff]
    constructor
    · rintro ⟨-, -, -, hc | ⟨c, hc, hca⟩⟩
      · exact Or.inl hc
      · rw [List.mem_filter, decide_eq_true_eq] at hca
        exact Or.inr ⟨c, hc, hca.2⟩
    · rintro (hc | ⟨c, hc, hce⟩)
      · exact ⟨hp, hff, hcf, Or.inl hc⟩
      · refine ⟨hp, hff, hcf, Or.inr ⟨c, hc, ?_⟩⟩
        rw [List.mem_filter, decide_eq_true_eq]
        exact ⟨(mem_collectUniqueCuisines places c).mpr ⟨p, hp, hc⟩, hce⟩
  · exact boozeApplyFilters_keep

/-- **C2 (counterexample)**: in `booze.js`, a venue with zero categories
is NOT kept unconditionally: with venues `[exBar, exNoType]` (unique type
list `["bar"]`) and an empty exclusion set, `applyFilters` drops
`exNoType` even though it has zero categories and no coarse toggle
excludes it. -/
theorem boozeApplyFilters_drops_uncategorized :
    exNoType.types = [] ∧ exNoType ∈ [exBar, exNoType] ∧
    ¬ exNoType ∈ Booze.applyFilters [exBar, exNoType]
        (Booze.buildTypesList [exBar, exNoType]) [] := by
  have hb : Booze.buildTypesList [exBar, exNoType] = ["bar"] := by
    unfold Booze.buildTypesList
    simp [exBar, exNoType, firstSeenDedup, List.mergeSort]
  refine ⟨rfl, by simp, ?_⟩
  rw [hb]
  unfold Booze.applyFilters
  simp [exNoType, exBar]

/-- **C2 (witness)**: the food-variant rule at a concrete input: one
venue with cuisines `["pizza", "italian"]`, exclusion set `["italian"]` —
the venue is kept because `pizza` survives. -/
theorem applyFilters_category_rule_witness :
    let pz : Place :=
      { id := "node/3", name := "P", amenity := some "restaurant",
        cuisine := ["pizza", "italian"] }
    pz ∈ applyFilters [pz] (collectUniqueCuisines [pz]) ["italian"]
        true true ↔
      (pz.cuisine = [] ∨ ∃ c ∈ pz.cuisine, ¬ c ∈ ["italian"]) :=
  applyFilters_category_rule.1 _ _ _ _ _ (by simp) (by simp) (by simp)

/-- **C5 (counterexample)**: the filtered list is NOT always a *strict*
subset of the deduplicated venue list: with the single venue
`plainPlace`, no exclusions and both toggles on, `applyFilters` returns
the whole list, so the filtered set is not a proper subset of the venue
set. -/
theorem filteredList_not_strict_subset :
    applyFilters [plainPlace] (collectUniqueCuisines [plainPlace]) []
        true true = [plainPlace] ∧
    ¬ ((applyFilters [plainPlace] (collectUniqueCuisines [plainPlace]) []
          true true).toFinset ⊂ ([plainPlace] : List Place).toFinset) := by
  have h : applyFilters [plainPlace] (collectUniqueCuisines [plainPlace])
      [] true true = [plainPlace] := by
    unfold applyFilters keepPlace collectUniqueCuisines
    simp [plainPlace, firstSeenDedup, List.mergeSort]
  refine ⟨h, ?_⟩
  rw [h]
  simp

/-- **C5 (amended)**: the filtered list is always a subset — in fact a
sublist — of the most recent fetch's deduplicated venues (not in general
a strict subset); it is empty iff no venue satisfies the active filter
predicate; and spinning on an empty filtered list is a no-op in both spin
variants (spin is disabled). -/
theorem filteredList_subset_and_empty_iff :
    (∀ (places : List Place) (uniq excl : List String) (ff cf : Bool),
        List.Sublist (applyFilters places uniq excl ff cf) places) ∧
    (∀ (bplaces : List Booze.BPlace) (uniqT exclT : List String),
        List.Sublist (Booze.applyFilters bplaces uniqT exclT) bplaces) ∧
    (∀ (places : List Place) (uniq excl : List String) (ff cf : Bool),
        applyFilters places uniq excl ff cf = [] ↔
          ∀ p ∈ places,
            ¬ keepPlace (uniq.filter (fun c => ¬ c ∈ excl)) ff cf p
              = true) ∧
    (∀ (P : Type) (cap : ℕ) (st : WheelState P) (rnd : SpinRand),
        st.filtered = [] → spinWheel cap st rnd = (st, none)) ∧
    (∀ (P : Type) (st : WheelState P) (r1 r2 : ℚ),
        st.filtered = [] → spinWheelSimple st r1 r2 = (st, none)) := by
  refine ⟨?_, ?_, ?_, ?_, ?_⟩
  · intro places uniq excl ff cf
    exact List.filter_sublist _
  · intro bplaces uniqT exclT
    unfold Booze.applyFilters
    by_cases h : uniqT.length = 0
    · rw [if_pos h]
      exact List.filter_sublist _
    · rw [if_neg h]
      exact List.filter_sublist _
  · intro places uniq excl ff cf
    unfold applyFilters
    exact List.filter_eq_nil_iff
  · intro P cap st rnd hemp
    unfold spinWheel
    by_cases h : st.isSpinning = true
    · rw [if_pos h]
    · rw [if_neg h, if_pos (by rw [hemp]; rfl)]
  · intro P st r1 r2 hemp
    unfold spinWheelSimple
    by_cases h : st.isSpinning = true
    · rw [if_pos h]
    · rw [if_neg h, if_pos (by rw [hemp]; rfl)]

/-- **C5 (witness)**: the amended claim at a concrete input: a spin on an
empty filtered list leaves the state untouched and reveals nothing. -/
theorem filteredList_subset_and_empty_iff_witness :
    spinWheel 200 (⟨([] : List ℕ), 5, false⟩ : WheelState ℕ)
        ⟨0, 0, 0⟩ = (⟨[], 5, false⟩, none) :=
  filteredList_subset_and_empty_iff.2.2.2.1 ℕ 200 _ _ rfl

/-! ## Uniform selection (C1) -/

theorem card_div_eq (n q i : ℕ) (hq : 0 < q) (hi : i < n) :
    ((Finset.range (n * q)).filter (fun (k : ℕ) => k / q = i)).card = q := by
  have hset : (Finset.range (n * q)).filter (fun (k : ℕ) => k / q = i) =
      Finset.Ico (i * q) (i * q + q) := by
    ext k
    simp only [Finset.mem_filter, Finset.mem_range, Finset.mem_Ico]
    constructor
    · rintro ⟨hk, hdiv⟩
      constructor
      · rw [← hdiv]
        exact Nat.div_mul_le_self k q
      · have hlt : k / q < i + 1 := by omega
        have hmul := (Nat.div_lt_iff_lt_mul hq).mp hlt
        rw [Nat.succ_mul] at hmul
        exact hmul
    · rintro ⟨h1, h2⟩
      have h4 : (i + 1) * q = i * q + q := Nat.succ_mul i q
      have hdiv : k / q = i :=
        Nat.div_eq_of_lt_le h1 (by rw [h4]; exact h2)
      have h3 : (i + 1) * q ≤ n * q := Nat.mul_le_mul_right q (by omega)
      exact ⟨lt_of_lt_of_le (h4 ▸ h2) h3, hdiv⟩
  rw [hset, Nat.card_Ico]
  omega

theorem chosenIndexOf_grid_eq_div (n q k : ℕ) (hn : 0 < n) (hq : 0 < q) :
    chosenIndexOf ((k : ℚ) / ((n * q : ℕ) : ℚ)) n = k / q := by
  unfold chosenIndexOf
  have hnq : ((n : ℚ)) ≠ 0 := by positivity
  have hqq : ((q : ℚ)) ≠ 0 := by positivity
  have harg : (k : ℚ) / ((n * q : ℕ) : ℚ) * (n : ℚ) = (k : ℚ) / (q : ℚ) := by
    push_cast
    field_simp
    ring
  rw [harg, Rat.floor_natCast_div_natCast]
  exact Int.toNat_natCast _

theorem jsNormalize_eq_fract (y : ℚ) :
    jsNormalize y = 360 * Int.fract (y / 360) := by
  obtain ⟨h0, h1⟩ := jsNormalize_mem y
  obtain ⟨k, hk⟩ := jsNormalize_sub y
  have hf0 : 0 ≤ 360 * Int.fract (y / 360) := by
    have := Int.fract_nonneg (y / 360)
    linarith
  have hf1 : 360 * Int.fract (y / 360) < 360 := by
    have := Int.fract_lt_one (y / 360)
    linarith
  refine eq_of_sub_int_mul h0 h1 hf0 hf1 (k := k + ⌊y / 360⌋) ?_
  have hfr : Int.fract (y / 360) = y / 360 - ⌊y / 360⌋ :=
    (Int.self_sub_floor (y / 360)).symm
  rw [hfr]
  have h360 : (360 : ℚ) * (y / 360) = y := by ring
  push_cast
  linarith [hk]

theorem floor_mul_fract_grid (t : ℚ) (n q m k : ℕ) (hn : 0 < n) (hq : 0 < q)
    (hm : m = n * q) :
    (⌊(n : ℚ) * Int.fract (t - (k : ℚ) / (m : ℚ))⌋).toNat
      = ((⌊(m : ℚ) * t⌋ - (k : ℤ)) % (m : ℤ)).toNat / q := by
  have hmpos : 0 < m := by rw [hm]; exact Nat.mul_pos hn hq
  have hmq : (0 : ℚ) < (m : ℚ) := by exact_mod_cast hmpos
  have hqq : (0 : ℚ) < (q : ℚ) := by exact_mod_cast hq
  have hfr : Int.fract (t - (k : ℚ) / (m : ℚ))
      = (t - (k : ℚ) / (m : ℚ)) - ⌊t - (k : ℚ) / (m : ℚ)⌋ :=
    (Int.self_sub_floor _).symm
  have hmu : (m : ℚ) * (t - (k : ℚ) / (m : ℚ)) = (m : ℚ) * t - (k : ℚ) := by
    field_simp
    ring
  have hstep : (m : ℚ) * Int.fract (t - (k : ℚ) / (m : ℚ))
      = (m : ℚ) * t
        - (((k : ℤ) + (m : ℤ) * ⌊t - (k : ℚ) / (m : ℚ)⌋ : ℤ) : ℚ) := by
    rw [hfr, mul_sub, hmu]
    push_cast
    ring
  have hj : ⌊(m : ℚ) * Int.fract (t - (k : ℚ) / (m : ℚ))⌋
      = ⌊(m : ℚ) * t⌋
        - ((k : ℤ) + (m : ℤ) * ⌊t - (k : ℚ) / (m : ℚ)⌋) := by
    rw [hstep, Int.floor_sub_int]
  have hjf0 : 0 ≤ ⌊(m : ℚ) * Int.fract (t - (k : ℚ) / (m : ℚ))⌋ :=
    Int.floor_nonneg.mpr (mul_nonneg (le_of_lt hmq) (Int.fract_nonneg _))
  have hjfm : ⌊(m : ℚ) * Int.fract (t - (k : ℚ) / (m : ℚ))⌋ < (m : ℤ) := by
    refine Int.floor_lt.mpr ?_
    have h2 := mul_lt_mul_of_pos_left
      (Int.fract_lt_one (t - (k : ℚ) / (m : ℚ))) hmq
    rw [mul_one] at h2
    exact_mod_cast h2
  have hemod : (⌊(m : ℚ) * t⌋ - (k : ℤ)) % (m : ℤ)
      = ⌊(m : ℚ) * Int.fract (t - (k : ℚ) / (m : ℚ))⌋ := by
    have hrepr : ⌊(m : ℚ) * t⌋ - (k : ℤ)
        = ⌊(m : ℚ) * Int.fract (t - (k : ℚ) / (m : ℚ))⌋
          + (m : ℤ) * ⌊t - (k : ℚ) / (m : ℚ)⌋ := by
      rw [hj]
      ring
    rw [hrepr, Int.add_mul_emod_self_left]
    exact Int.emod_eq_of_lt hjf0 hjfm
  rw [hemod]
  have hjle : ((⌊(m : ℚ) * Int.fract (t - (k : ℚ) / (m : ℚ))⌋ : ℤ) : ℚ)
      ≤ (m : ℚ) * Int.fract (t - (k : ℚ) / (m : ℚ)) := Int.floor_le _
  have hjlt : (m : ℚ) * Int.fract (t - (k : ℚ) / (m : ℚ))
      < (⌊(m : ℚ) * Int.fract (t - (k : ℚ) / (m : ℚ))⌋ : ℚ) + 1 :=
    Int.lt_floor_add_one _
  set j : ℤ := ⌊(m : ℚ) * Int.fract (t - (k : ℚ) / (m : ℚ))⌋ with hjdef
  have hq0 : (0 : ℤ) < (q : ℤ) := by exact_mod_cast hq
  have hbrepr : j = (q : ℤ) * (j / (q : ℤ)) + j % (q : ℤ) :=
    (Int.ediv_add_emod j q).symm
  have hb0 : 0 ≤ j % (q : ℤ) := Int.emod_nonneg j (by omega)
  have hb1 : j % (q : ℤ) < (q : ℤ) := Int.emod_lt_of_pos j hq0
  have hnfr : (n : ℚ) * Int.fract (t - (k : ℚ) / (m : ℚ))
      = ((m : ℚ) * Int.fract (t - (k : ℚ) / (m : ℚ))) / (q : ℚ) := by
    rw [hm]
    push_cast
    field_simp
    ring
  have hfl : ⌊(n : ℚ) * Int.fract (t - (k : ℚ) / (m : ℚ))⌋ = j / (q : ℤ) := by
    rw [Int.floor_eq_iff, hnfr]
    constructor
    · rw [le_div_iff₀ hqq]
      have hz1 : j / (q : ℤ) * (q : ℤ) ≤ j := by linarith [hbrepr, hb0]
      have hz1q : ((j / (q : ℤ) : ℤ) : ℚ) * (q : ℚ) ≤ (j : ℚ) := by
        exact_mod_cast hz1
      exact le_trans hz1q hjle
    · rw [div_lt_iff₀ hqq]
      have hz2 : j + 1 ≤ (j / (q : ℤ) + 1) * (q : ℤ) := by
        have hexp : (j / (q : ℤ) + 1) * (q : ℤ)
            = (q : ℤ) * (j / (q : ℤ)) + (q : ℤ) := by ring
        rw [hexp]
        linarith [hbrepr, hb1]
      have hz2q : ((j : ℚ) + 1) ≤ (((j / (q : ℤ) : ℤ) : ℚ) + 1) * (q : ℚ) := by
        have hc : ((j + 1 : ℤ) : ℚ) ≤ (((j / (q : ℤ) + 1) * (q : ℤ) : ℤ) : ℚ) := by
          exact_mod_cast hz2
        push_cast at hc
        linarith
      linarith [hjlt]
  rw [hfl]
  obtain ⟨jn, hjn⟩ := Int.eq_ofNat_of_zero_le hjf0
  rw [hjn, ← Int.ofNat_ediv, Int.toNat_natCast, Int.toNat_natCast]

theorem decodeIndex_grid (acc : ℚ) (E n q m k : ℕ) (hn : 0 < n) (hq : 0 < q)
    (hm : m = n * q) :
    decodeIndex (acc + (E : ℚ) * 360 + ((k : ℚ) / (m : ℚ)) * 360) n
      = ((⌊(m : ℚ) * ((-acc + 90) / 360)⌋ - (k : ℤ)) % (m : ℤ)).toNat
          / q := by
  have hmpos : 0 < m := by rw [hm]; exact Nat.mul_pos hn hq
  have hmq0 : ((m : ℚ)) ≠ 0 := by positivity
  have hnq0 : ((n : ℚ)) ≠ 0 := by positivity
  unfold decodeIndex
  rw [jsNormalize_eq_fract]
  have harg : (-(acc + (E : ℚ) * 360 + ((k : ℚ) / (m : ℚ)) * 360) + 90) / 360
      = ((-acc + 90) / 360 - (k : ℚ) / (m : ℚ)) - ((E : ℤ) : ℚ) := by
    push_cast
    field_simp
    ring
  rw [harg, Int.fract_sub_int]
  have hdiv2 : (360 : ℚ)
        * Int.fract ((-acc + 90) / 360 - (k : ℚ) / (m : ℚ))
        / (360 / (n : ℚ))
      = (n : ℚ) * Int.fract ((-acc + 90) / 360 - (k : ℚ) / (m : ℚ)) := by
    field_simp
    ring
  rw [hdiv2, floor_mul_fract_grid ((-acc + 90) / 360) n q m k hn hq hm]
  have hlt : ((⌊(m : ℚ) * ((-acc + 90) / 360)⌋ - (k : ℤ)) %
      (m : ℤ)).toNat / q < n := by
    have h1 := Int.emod_lt_of_pos
      (⌊(m : ℚ) * ((-acc + 90) / 360)⌋ - (k : ℤ))
      (by exact_mod_cast hmpos : (0 : ℤ) < (m : ℤ))
    have h2 := Int.emod_nonneg
      (⌊(m : ℚ) * ((-acc + 90) / 360)⌋ - (k : ℤ))
      (by exact_mod_cast hmpos.ne' : ((m : ℤ)) ≠ 0)
    have h3 : ((⌊(m : ℚ) * ((-acc + 90) / 360)⌋ - (k : ℤ)) %
        (m : ℤ)).toNat < m := by omega
    exact (Nat.div_lt_iff_lt_mul hq).mpr (lt_of_lt_of_le h3 (le_of_eq hm))
  exact Nat.mod_eq_of_lt hlt

theorem emod_grid_involution (M : ℤ) (m : ℕ) (hm : 0 < m) (k : ℕ)
    (hk : k < m) :
    ((M - ((((M - (k : ℤ)) % (m : ℤ)).toNat : ℕ) : ℤ)) % (m : ℤ)).toNat
      = k := by
  have hm0 : ((m : ℤ)) ≠ 0 := by exact_mod_cast hm.ne'
  have h1 : 0 ≤ (M - (k : ℤ)) % (m : ℤ) := Int.emod_nonneg _ hm0
  rw [Int.toNat_of_nonneg h1]
  have h2 : (M - (M - (k : ℤ)) % (m : ℤ)) % (m : ℤ)
      = ((k : ℤ)) % (m : ℤ) := by
    conv_lhs => rw [Int.sub_emod]
    conv_rhs => rw [show (k : ℤ) = M - (M - (k : ℤ)) by ring]
    conv_rhs => rw [Int.sub_emod]
    rw [Int.emod_emod_of_dvd _ (dvd_refl (m : ℤ))]
  rw [h2, Int.emod_eq_of_lt (by positivity) (by exact_mod_cast hk)]
  exact Int.toNat_natCast k

theorem card_decode_grid (M : ℤ) (n q m i : ℕ) (hn : 0 < n) (hq : 0 < q)
    (hm : m = n * q) (hi : i < n) :
    ((Finset.range m).filter (fun (k : ℕ) =>
        ((M - (k : ℤ)) % (m : ℤ)).toNat / q = i)).card = q := by
  have hmpos : 0 < m := by rw [hm]; exact Nat.mul_pos hn hq
  have hm0 : ((m : ℤ)) ≠ 0 := by exact_mod_cast hmpos.ne'
  have hflt : ∀ k : ℕ, ((M - (k : ℤ)) % (m : ℤ)).toNat < m := by
    intro k
    have h1 := Int.emod_lt_of_pos (M - (k : ℤ))
      (by exact_mod_cast hmpos : (0 : ℤ) < (m : ℤ))
    have h2 := Int.emod_nonneg (M - (k : ℤ)) hm0
    omega
  have hbij : ((Finset.range m).filter (fun (k : ℕ) =>
        ((M - (k : ℤ)) % (m : ℤ)).toNat / q = i)).card
      = ((Finset.range m).filter (fun (r : ℕ) => r / q = i)).card := by
    refine Finset.card_nbij' (fun k => ((M - (k : ℤ)) % (m : ℤ)).toNat)
      (fun r => ((M - (r : ℤ)) % (m : ℤ)).toNat) ?_ ?_ ?_ ?_
    · intro k hk
      simp only [Finset.mem_filter, Finset.mem_range] at hk ⊢
      exact ⟨hflt k, hk.2⟩
    · intro r hr
      simp only [Finset.mem_filter, Finset.mem_range] at hr ⊢
      refine ⟨hflt r, ?_⟩
      rw [emod_grid_involution M m hmpos r hr.1]
      exact hr.2
    · intro k hk
      simp only [Finset.mem_coe, Finset.mem_filter, Finset.mem_range] at hk
      exact emod_grid_involution M m hmpos k hk.1
    · intro r hr
      simp only [Finset.mem_coe, Finset.mem_filter, Finset.mem_range] at hr
      exact emod_grid_involution M m hmpos r hr.1
  rw [hbij, hm]
  exact card_div_eq n q i hq hi

theorem spinWheelSimple_run (P : Type) (st : WheelState P) (r1 r2 : ℚ)
    (hsp : st.isSpinning = false) (hne : st.filtered.length ≠ 0) :
    spinWheelSimple st r1 r2 =
      ({ filtered := st.filtered,
         acc := st.acc + ((4 + (⌊r1 * 4⌋).toNat : ℕ) : ℚ) * 360 + r2 * 360,
         isSpinning := false },
        st.filtered[decodeIndex
          (st.acc + ((4 + (⌊r1 * 4⌋).toNat : ℕ) : ℚ) * 360 + r2 * 360)
          st.filtered.length]?) := by
  have hspin : ¬ st.isSpinning = true := by
    rw [hsp]
    exact Bool.false_ne_true
  simp only [spinWheelSimple, if_neg hspin, if_neg hne]

/-- **C1**: for every non-empty filtered list of size `n`, a spin selects
each candidate with probability `1/n` over a uniform grid of `n·q`
equally likely random draws, in BOTH selection paths: (1) the
compressed-variant winner draw `Math.floor(Math.random()·n)` hits every
index `i < n` exactly `q` times; (2) the non-compressed variant, which
selects by decoding the uniformly random final rotation, also hits every
index exactly `q` times when `randomPart`'s draw ranges over the grid
`k/(n·q)`; (3) the non-compressed spin's revealed winner is exactly the
entry at the rotation-decoded index; and (4) the compressed spin's
returned winner does not depend on the visual slice cap at all, so
visual compression never affects selection probability. -/
theorem spin_selection_uniform :
    (∀ (n q i : ℕ), 0 < n → 0 < q → i < n →
        ((Finset.range (n * q)).filter
            (fun (k : ℕ) =>
              chosenIndexOf ((k : ℚ) / ((n * q : ℕ) : ℚ)) n = i)).card
          = q) ∧
    (∀ (P : Type) (st : WheelState P) (r1 : ℚ) (q i : ℕ),
        st.isSpinning = false → 0 < st.filtered.length → 0 < q →
        i < st.filtered.length →
        ((Finset.range (st.filtered.length * q)).filter
            (fun (k : ℕ) =>
              decodeIndex
                ((spinWheelSimple st r1
                  ((k : ℚ) / ((st.filtered.length * q : ℕ) : ℚ))).1.acc)
                st.filtered.length = i)).card
          = q) ∧
    (∀ (P : Type) (st : WheelState P) (r1 r2 : ℚ),
        st.isSpinning = false → st.filtered.length ≠ 0 →
        (spinWheelSimple st r1 r2).2 =
          st.filtered[decodeIndex ((spinWheelSimple st r1 r2).1.acc)
            st.filtered.length]?) ∧
    (∀ (P : Type) (cap cap2 : ℕ) (st : WheelState P) (rnd : SpinRand),
        (spinWheel cap st rnd).2 = (spinWheel cap2 st rnd).2) := by
  refine ⟨?_, ?_, ?_, ?_⟩
  · intro n q i hn hq hi
    have hcongr :
        (Finset.range (n * q)).filter
            (fun (k : ℕ) =>
              chosenIndexOf ((k : ℚ) / ((n * q : ℕ) : ℚ)) n = i) =
          (Finset.range (n * q)).filter (fun (k : ℕ) => k / q = i) := by
      apply Finset.filter_congr
      intro k _
      rw [chosenIndexOf_grid_eq_div n q k hn hq]
    rw [hcongr]
    exact card_div_eq n q i hq hi
  · intro P st r1 q i hsp hn hq hi
    have hcongr :
        (Finset.range (st.filtered.length * q)).filter
            (fun (k : ℕ) =>
              decodeIndex
                ((spinWheelSimple st r1
                  ((k : ℚ) / ((st.filtered.length * q : ℕ) : ℚ))).1.acc)
                st.filtered.length = i) =
          (Finset.range (st.filtered.length * q)).filter
            (fun (k : ℕ) =>
              ((⌊((st.filtered.length * q : ℕ) : ℚ)
                  * ((-st.acc + 90) / 360)⌋ - (k : ℤ)) %
                (((st.filtered.length * q : ℕ) : ℤ))).toNat / q = i) := by
      apply Finset.filter_congr
      intro k _
      rw [spinWheelSimple_run P st r1 _ hsp (by omega)]
      rw [decodeIndex_grid st.acc (4 + (⌊r1 * 4⌋).toNat)
        st.filtered.length q (st.filtered.length * q) k hn hq rfl]
    rw [hcongr]
    exact card_decode_grid _ st.filtered.length q (st.filtered.length * q) i
      hn hq rfl hi
  · intro P st r1 r2 hsp hne
    rw [spinWheelSimple_run P st r1 r2 hsp hne]
  · intro P cap cap2 st rnd
    unfold spinWheel
    by_cases h1 : st.isSpinning = true
    · rw [if_pos h1, if_pos h1]
    · rw [if_neg h1, if_neg h1]
      by_cases h2 : st.filtered.length = 0
      · rw [if_pos h2, if_pos h2]
      · rw [if_neg h2, if_neg h2]

/-- **C1 (witness)**: with `n = 3` candidates and the uniform grid of
`3 * 2 = 6` random values, index `1` is drawn exactly `2` times by the
compressed-variant winner draw, and the non-compressed rotation-decode
selection on `[7, 8, 9]` also selects index `1` exactly `2` times. -/
theorem spin_selection_uniform_witness :
    ((Finset.range (3 * 2)).filter
        (fun (k : ℕ) =>
          chosenIndexOf ((k : ℚ) / ((3 * 2 : ℕ) : ℚ)) 3 = 1)).card = 2 ∧
    ((Finset.range (3 * 2)).filter
        (fun (k : ℕ) =>
          decodeIndex
            ((spinWheelSimple (⟨[7, 8, 9], 0, false⟩ : WheelState ℕ) 0
              ((k : ℚ) / ((3 * 2 : ℕ) : ℚ))).1.acc) 3 = 1)).card = 2 :=
  ⟨spin_selection_uniform.1 3 2 1 (by decide) (by decide) (by decide),
    spin_selection_uniform.2.1 ℕ ⟨[7, 8, 9], 0, false⟩ 0 2 1 rfl
      (by decide) (by decide) (by decide)⟩

/-! ## Rotation accumulation (C9) and index ranges (C10) -/

/-- **C9**: `accumulatedRotation` is strictly increasing across completed
spins — each completed spin (in either spin variant) adds at least 4 full
rotations plus a non-negative offset — and neither a filter change nor a
reload (`initialize`) touches it; no operation resets it to zero. -/
theorem accumulatedRotation_monotone :
    (∀ (P : Type) (cap : ℕ) (st : WheelState P) (rnd : SpinRand),
        st.isSpinning = false → st.filtered.length ≠ 0 →
        st.acc + 4 * 360 ≤ (spinWheel cap st rnd).1.acc ∧
          st.acc < (spinWheel cap st rnd).1.acc) ∧
    (∀ (P : Type) (st : WheelState P) (r1 r2 : ℚ),
        st.isSpinning = false → st.filtered.length ≠ 0 → 0 ≤ r2 →
        st.acc + 4 * 360 ≤ (spinWheelSimple st r1 r2).1.acc ∧
          st.acc < (spinWheelSimple st r1 r2).1.acc) ∧
    (∀ (st : WheelState Place) (places : List Place)
        (uniq excl : List String) (ff cf : Bool),
        (applyFiltersState st places uniq excl ff cf).acc = st.acc) ∧
    (∀ (fetched : List Place) (ff cf : Bool) (st : WheelState Place),
        (initializeState fetched ff cf st).acc = st.acc) := by
  refine ⟨?_, ?_, fun _ _ _ _ _ _ => rfl, fun _ _ _ _ => rfl⟩
  · intro P cap st rnd hsp hne
    have hspin : ¬ st.isSpinning = true := by
      rw [hsp]
      exact Bool.false_ne_true
    simp only [spinWheel, if_neg hspin, if_neg hne]
    have hoff := jsNormalize_mem
      (jsNormalize (-st.acc + 90) -
        (((chosenIndexOf rnd.rWin st.filtered.length *
              (min st.filtered.length cap) / st.filtered.length : ℕ) : ℚ) *
            (360 / ((min st.filtered.length cap : ℕ) : ℚ)) +
          rnd.rOff * (360 / ((min st.filtered.length cap : ℕ) : ℚ))))
    have hcast : (4 : ℚ) ≤ ((4 + (⌊rnd.rSpins * 4⌋).toNat : ℕ) : ℚ) := by
      push_cast
      have : (0 : ℚ) ≤ ((⌊rnd.rSpins * 4⌋).toNat : ℚ) := by positivity
      linarith
    constructor
    · linarith [hcast, hoff.1]
    · linarith [hcast, hoff.1]
  · intro P st r1 r2 hsp hne hr2
    have hspin : ¬ st.isSpinning = true := by
      rw [hsp]
      exact Bool.false_ne_true
    simp only [spinWheelSimple, if_neg hspin, if_neg hne]
    have hcast : (4 : ℚ) ≤ ((4 + (⌊r1 * 4⌋).toNat : ℕ) : ℚ) := by
      push_cast
      have : (0 : ℚ) ≤ ((⌊r1 * 4⌋).toNat : ℚ) := by positivity
      linarith
    have hrp : (0 : ℚ) ≤ r2 * 360 := by positivity
    constructor
    · linarith [hcast, hrp]
    · linarith [hcast, hrp]

/-- **C9 (witness)**: one completed spin from rest orientation 10° adds
at least 1440°, and a filter change leaves the accumulator alone. -/
theorem accumulatedRotation_monotone_witness :
    (10 : ℚ) + 4 * 360 ≤
        (spinWheel 200 (⟨[7], 10, false⟩ : WheelState ℕ) ⟨0, 0, 0⟩).1.acc ∧
      (10 : ℚ) < (spinWheel 200 (⟨[7], 10, false⟩ : WheelState ℕ)
        ⟨0, 0, 0⟩).1.acc :=
  accumulatedRotation_monotone.1 ℕ 200 ⟨[7], 10, false⟩ ⟨0, 0, 0⟩ rfl
    (by decide)

/-- **C10 (implicit)**: both selection paths yield an index in `[0, n)` —
the uniform draw `⌊r·n⌋` for `r ∈ [0,1)` and the rotation decoding
`⌊normalized / sliceAngle⌋ % n` — so the winner lookup in the filtered
list always succeeds (the returned option is `some`). -/
theorem chosenIndexOf_lt (r : ℚ) (n : ℕ) (hr0 : 0 ≤ r) (hr1 : r < 1)
    (hn : 0 < n) : chosenIndexOf r n < n := by
  unfold chosenIndexOf
  have hnq : (0 : ℚ) < (n : ℚ) := by exact_mod_cast hn
  have hlt : r * (n : ℚ) < (n : ℚ) := by nlinarith
  have hfl : ⌊r * (n : ℚ)⌋ < (n : ℤ) :=
    Int.floor_lt.mpr (by exact_mod_cast hlt)
  omega

theorem decodeIndex_lt (rot : ℚ) (n : ℕ) (hn : 0 < n) :
    decodeIndex rot n < n := by
  unfold decodeIndex
  exact Nat.mod_lt _ hn

theorem winning_index_in_range :
    (∀ (r : ℚ) (n : ℕ), 0 ≤ r → r < 1 → 0 < n → chosenIndexOf r n < n) ∧
    (∀ (rot : ℚ) (n : ℕ), 0 < n → decodeIndex rot n < n) ∧
    (∀ (P : Type) (cap : ℕ) (st : WheelState P) (rnd : SpinRand),
        st.isSpinning = false → st.filtered.length ≠ 0 →
        0 ≤ rnd.rWin → rnd.rWin < 1 →
        ((spinWheel cap st rnd).2).isSome = true) ∧
    (∀ (P : Type) (st : WheelState P) (r1 r2 : ℚ),
        st.isSpinning = false → st.filtered.length ≠ 0 →
        ((spinWheelSimple st r1 r2).2).isSome = true) := by
  have hchos := chosenIndexOf_lt
  have hdec := decodeIndex_lt
  refine ⟨hchos, hdec, ?_, ?_⟩
  · intro P cap st rnd hsp hne hr0 hr1
    have hspin : ¬ st.isSpinning = true := by
      rw [hsp]
      exact Bool.false_ne_true
    simp only [spinWheel, if_neg hspin, if_neg hne]
    rw [List.getElem?_eq_getElem
      (hchos rnd.rWin st.filtered.length hr0 hr1 (by omega))]
    rfl
  · intro P st r1 r2 hsp hne
    have hspin : ¬ st.isSpinning = true := by
      rw [hsp]
      exact Bool.false_ne_true
    simp only [spinWheelSimple, if_neg hspin, if_neg hne]
    rw [List.getElem?_eq_getElem (hdec _ st.filtered.length (by omega))]
    rfl

/-- **C10 (witness)**: on the singleton list `[7]` with winner draw `1/2`
the compressed spin reveals a result. -/
theorem winning_index_in_range_witness :
    ((spinWheel 200 (⟨[7], 10, false⟩ : WheelState ℕ)
        ⟨1/2, 0, 0⟩).2).isSome = true :=
  winning_index_in_range.2.2.1 ℕ 200 ⟨[7], 10, false⟩ ⟨1/2, 0, 0⟩ rfl
    (by decide) (by norm_num) (by norm_num)

/-! ## Rotation decoding agrees with the preselected winner (C6) -/

theorem decode_roundtrip (acc : ℚ) (n ci e : ℕ) (rOff : ℚ)
    (hn : 0 < n) (hci : ci < n) (ho0 : 0 ≤ rOff) (ho1 : rOff < 1) :
    decodeIndex
      (acc + (e : ℚ) * 360 +
        jsNormalize (jsNormalize (-acc + 90) -
          ((ci : ℚ) * (360 / (n : ℚ)) + rOff * (360 / (n : ℚ))))) n = ci := by
  have hnq : (0 : ℚ) < (n : ℚ) := by exact_mod_cast hn
  unfold decodeIndex
  have hsp : (0 : ℚ) < 360 / (n : ℚ) := by positivity
  have htb0 : 0 ≤ (ci : ℚ) * (360 / (n : ℚ)) + rOff * (360 / (n : ℚ)) := by
    positivity
  have hciq : (ci : ℚ) + rOff < (n : ℚ) := by
    have h1 : (ci : ℚ) + 1 ≤ (n : ℚ) := by exact_mod_cast hci
    linarith
  have htb1 : (ci : ℚ) * (360 / (n : ℚ)) + rOff * (360 / (n : ℚ)) < 360 := by
    have heq : (ci : ℚ) * (360 / (n : ℚ)) + rOff * (360 / (n : ℚ))
        = ((ci : ℚ) + rOff) * (360 / (n : ℚ)) := by ring
    have h360 : (n : ℚ) * (360 / (n : ℚ)) = 360 := by field_simp
    rw [heq]
    calc ((ci : ℚ) + rOff) * (360 / (n : ℚ))
        < (n : ℚ) * (360 / (n : ℚ)) :=
          mul_lt_mul_of_pos_right hciq hsp
      _ = 360 := h360
  obtain ⟨k1, hk1⟩ := jsNormalize_sub (-acc + 90)
  obtain ⟨k2, hk2⟩ := jsNormalize_sub
    (jsNormalize (-acc + 90) -
      ((ci : ℚ) * (360 / (n : ℚ)) + rOff * (360 / (n : ℚ))))
  have hnorm :
      jsNormalize
        (-(acc + (e : ℚ) * 360 +
            jsNormalize (jsNormalize (-acc + 90) -
              ((ci : ℚ) * (360 / (n : ℚ)) + rOff * (360 / (n : ℚ))))) + 90)
        = (ci : ℚ) * (360 / (n : ℚ)) + rOff * (360 / (n : ℚ)) := by
    have hcongr :
        (-(acc + (e : ℚ) * 360 +
            jsNormalize (jsNormalize (-acc + 90) -
              ((ci : ℚ) * (360 / (n : ℚ)) + rOff * (360 / (n : ℚ))))) + 90) -
          ((ci : ℚ) * (360 / (n : ℚ)) + rOff * (360 / (n : ℚ)))
          = 360 * ((-k1 - k2 - (e : ℤ) : ℤ) : ℚ) := by
      push_cast
      linarith [hk1, hk2]
    rw [jsNormalize_congr (-k1 - k2 - (e : ℤ)) hcongr]
    exact jsNormalize_eq_self htb0 htb1
  rw [hnorm]
  have hdiv : ((ci : ℚ) * (360 / (n : ℚ)) + rOff * (360 / (n : ℚ))) /
      (360 / (n : ℚ)) = rOff + (ci : ℚ) := by
    field_simp
    ring
  rw [hdiv, Int.floor_add_nat,
    Int.floor_eq_zero_iff.mpr (Set.mem_Ico.mpr ⟨ho0, ho1⟩)]
  simp [Nat.mod_eq_of_lt hci]

/-- **C6**: in the non-compressed case (`n ≤ MAX_VISUAL_SLICES`, so
`visualCount = n`), the candidate index recovered from the final rotation
alone via `⌊normalize(-rotation + 90) / sliceAngle⌋ % n` equals the
precomputed `chosenIndex`, and the revealed winner equals the
rotation-decoded list entry — the precomputed-winner path and the
rotation-decoding path agree. -/
theorem spin_decode_consistency :
    ∀ (P : Type) (cap : ℕ) (st : WheelState P) (rnd : SpinRand),
      st.isSpinning = false → 0 < st.filtered.length →
      st.filtered.length ≤ cap →
      0 ≤ rnd.rWin → rnd.rWin < 1 → 0 ≤ rnd.rOff → rnd.rOff < 1 →
      decodeIndex ((spinWheel cap st rnd).1.acc) st.filtered.length =
        chosenIndexOf rnd.rWin st.filtered.length ∧
      (spinWheel cap st rnd).2 =
        st.filtered[decodeIndex ((spinWheel cap st rnd).1.acc)
          st.filtered.length]? := by
  intro P cap st rnd hsp hn hcap hw0 hw1 ho0 ho1
  have hspin : ¬ st.isSpinning = true := by
    rw [hsp]
    exact Bool.false_ne_true
  have hne : st.filtered.length ≠ 0 := by omega
  have hci : chosenIndexOf rnd.rWin st.filtered.length
      < st.filtered.length := chosenIndexOf_lt _ _ hw0 hw1 hn
  simp only [spinWheel, if_neg hspin, if_neg hne]
  rw [min_eq_left hcap, Nat.mul_div_cancel _ hn]
  constructor
  · exact decode_roundtrip st.acc st.filtered.length _ _ rnd.rOff hn hci
      ho0 ho1
  · rw [decode_roundtrip st.acc st.filtered.length _ _ rnd.rOff hn hci
      ho0 ho1]

/-- **C6 (witness)**: with three candidates, winner draw `1/3`
(`chosenIndex = 1`), offset draw `1/2` and resting rotation `0`, the
rotation decoding recovers index `1` and the revealed winner is that
entry. -/
theorem spin_decode_consistency_witness :
    decodeIndex
        ((spinWheel 200 (⟨[7, 8, 9], 0, false⟩ : WheelState ℕ)
          ⟨1/3, 1/2, 0⟩).1.acc) 3 = chosenIndexOf (1/3) 3 ∧
      (spinWheel 200 (⟨[7, 8, 9], 0, false⟩ : WheelState ℕ)
          ⟨1/3, 1/2, 0⟩).2 =
        [7, 8, 9][decodeIndex
          ((spinWheel 200 (⟨[7, 8, 9], 0, false⟩ : WheelState ℕ)
            ⟨1/3, 1/2, 0⟩).1.acc) 3]? :=
  spin_decode_consistency ℕ 200 ⟨[7, 8, 9], 0, false⟩ ⟨1/3, 1/2, 0⟩ rfl
    (by decide) (by decide) (by norm_num) (by norm_num) (by norm_num)
    (by norm_num)

/-! ## Category normalization (C8) -/

/-- **C8 (counterexample)**: `extractCuisines` does NOT de-duplicate per
record: the raw tag `cuisine = "italian;Italian"` yields the two-element
list `["italian", "italian"]`, not the single category `{italian}`. -/
theorem extractCuisines_keeps_duplicates :
    extractCuisines (some "italian;Italian") = ["italian", "italian"] ∧
    ¬ (extractCuisines (some "italian;Italian")).Nodup := by
  constructor
  · decide
  · decide

theorem map_strLower_filter_fixed (p : String → Bool) :
    ∀ (l : List String), (∀ x ∈ l, strLower x = x) →
      (l.filter p).map strLower = l.filter p
  | [], _ => rfl
  | x :: rest, h => by
      by_cases hp : p x = true
      · rw [List.filter_cons_of_pos hp, List.map_cons, h x (by simp),
          map_strLower_filter_fixed p rest
            (fun y hy => h y (by simp [hy]))]
      · rw [List.filter_cons_of_neg hp,
          map_strLower_filter_fixed p rest
            (fun y hy => h y (by simp [hy]))]

/-- **C8 (amended)**: derived category strings are case-normalized to
lower case in both classifiers (lower-casing the extracted cuisine list
is a no-op, because each entry is already the lower-casing of a raw
piece), and the booze classifier `collectTypes` de-duplicates its type
list per record; but `extractCuisines` does not de-duplicate, so a food
record may carry the same category twice (see the counterexample). -/
theorem categories_lowercased_types_deduped :
    (∀ raw : Option String,
        (extractCuisines raw).map strLower = extractCuisines raw) ∧
    (∀ (b1 b2 : Bool) (tags : Booze.Tags),
        (Booze.collectTypes b1 b2 tags).Nodup) := by
  constructor
  · intro raw
    unfold extractCuisines
    refine map_strLower_filter_fixed _ _ ?_
    intro x hx
    rw [List.mem_map] at hx
    obtain ⟨y, -, rfl⟩ := hx
    exact strLower_idem (strTrim y)
  · intro b1 b2 tags
    unfold Booze.collectTypes
    exact firstSeenDedup_nodup _ _

/-! ## Search radius clamping (C4) -/

theorem haversine_self (la lo : ℝ) :
    haversineDistanceMeters la lo la lo = 0 := by
  unfold haversineDistanceMeters atan2
  simp [sub_self, Real.sqrt_one, Real.arctan_zero]

/-- **C4 (counterexample)**: on the degenerate point box
`{south = 40, west = -86, north = 40, east = -86}` with centroid
`(40, -86)` all four centroid-to-edge haversine distances are `0`, so the
claimed formula `clamp(max·1.05)` gives `2500`, but the code substitutes
the default `12000` before clamping and returns `12000`. -/
theorem searchRadius_degenerate_box :
    computeSearchRadiusMetersReal 40 (-86) 40 (-86) 40 (-86) = 12000 ∧
    max (2500 : ℝ)
        (min 30000
          (max
              (max (haversineDistanceMeters 40 (-86) 40 (-86))
                (haversineDistanceMeters 40 (-86) 40 (-86)))
              (max (haversineDistanceMeters 40 (-86) 40 (-86))
                (haversineDistanceMeters 40 (-86) 40 (-86))) * 1.05))
      = 2500 := by
  constructor
  · unfold computeSearchRadiusMetersReal
    rw [haversine_self]
    dsimp only
    simp only [max_self, zero_mul]
    rw [if_pos (le_refl (0 : ℝ)),
      min_eq_right (by norm_num : (12000 : ℝ) ≤ 30000),
      max_eq_right (by norm_num : (2500 : ℝ) ≤ 12000)]
  · rw [haversine_self]
    simp only [max_self, zero_mul]
    rw [min_eq_right (by norm_num : (0 : ℝ) ≤ 30000),
      max_eq_left (by norm_num : (0 : ℝ) ≤ 2500)]

/-- **C4 (amended)**: for finite inputs, when the padded maximum
centroid-to-edge distance `r = max(dN,dS,dE,dW)·1.05` is positive the
result is exactly `clamp(r, 2500, 30000)`; when `r ≤ 0` (degenerate
point-like box) the variant default is substituted and returned; for
missing or non-finite inputs the result is the variant default (12000 in
`booze.js`, 9000 in `part_000`); and for ALL finite inputs — including a
centroid outside the box — the function totally computes a value in
`[2500, 30000]` (it never crashes). -/
theorem searchRadius_clamped :
    (∀ (d : ℚ → ℚ → ℚ → ℚ → ℚ) (s w n e la lo : ℚ),
        0 < max (max (d la lo n lo) (d la lo s lo))
            (max (d la lo la e) (d la lo la w)) * (21 / 20) →
        Booze.computeSearchRadiusMeters d
            (some ⟨some s, some w, some n, some e⟩) (some la) (some lo)
          = max 2500 (min 30000
              (max (max (d la lo n lo) (d la lo s lo))
                (max (d la lo la e) (d la lo la w)) * (21 / 20))) ∧
        FoodUS.computeSearchRadiusMeters d
            (some ⟨some s, some w, some n, some e⟩) (some la) (some lo)
          = max 2500 (min 30000
              (max (max (d la lo n lo) (d la lo s lo))
                (max (d la lo la e) (d la lo la w)) * (21 / 20)))) ∧
    (∀ (d : ℚ → ℚ → ℚ → ℚ → ℚ) (s w n e la lo : ℚ),
        max (max (d la lo n lo) (d la lo s lo))
            (max (d la lo la e) (d la lo la w)) * (21 / 20) ≤ 0 →
        Booze.computeSearchRadiusMeters d
            (some ⟨some s, some w, some n, some e⟩) (some la) (some lo)
          = 12000 ∧
        FoodUS.computeSearchRadiusMeters d
            (some ⟨some s, some w, some n, some e⟩) (some la) (some lo)
          = 9000) ∧
    (∀ (d : ℚ → ℚ → ℚ → ℚ → ℚ) (bbox : Option Bbox) (la lo : Option ℚ),
        finiteInputs bbox la lo = false →
        Booze.computeSearchRadiusMeters d bbox la lo = 12000 ∧
        FoodUS.computeSearchRadiusMeters d bbox la lo = 9000) ∧
    (∀ (d : ℚ → ℚ → ℚ → ℚ → ℚ) (s w n e la lo : ℚ),
        Booze.computeSearchRadiusMeters d
            (some ⟨some s, some w, some n, some e⟩) (some la) (some lo)
          ∈ Set.Icc (2500 : ℚ) 30000 ∧
        FoodUS.computeSearchRadiusMeters d
            (some ⟨some s, some w, some n, some e⟩) (some la) (some lo)
          ∈ Set.Icc (2500 : ℚ) 30000) := by
  have hbody : ∀ (defaultR : ℚ) (d : ℚ → ℚ → ℚ → ℚ → ℚ) (s w n e la lo : ℚ),
      computeSearchRadiusWith defaultR d
          (some ⟨some s, some w, some n, some e⟩) (some la) (some lo)
        = max 2500 (min 30000
            (if max (max (d la lo n lo) (d la lo s lo))
                  (max (d la lo la e) (d la lo la w)) * (21 / 20) ≤ 0
             then defaultR
             else max (max (d la lo n lo) (d la lo s lo))
                (max (d la lo la e) (d la lo la w)) * (21 / 20))) := by
    intro defaultR d s w n e la lo
    rfl
  have hicc : ∀ x : ℚ, max 2500 (min 30000 x) ∈ Set.Icc (2500 : ℚ) 30000 := by
    intro x
    constructor
    · exact le_max_left _ _
    · exact max_le (by norm_num) (min_le_left _ _)
  refine ⟨?_, ?_, ?_, ?_⟩
  · intro d s w n e la lo hr
    constructor
    · rw [Booze.computeSearchRadiusMeters, hbody, if_neg (not_le.mpr hr)]
    · rw [FoodUS.computeSearchRadiusMeters, hbody, if_neg (not_le.mpr hr)]
  · intro d s w n e la lo hr
    constructor
    · rw [Booze.computeSearchRadiusMeters, hbody, if_pos hr]
      norm_num
    · rw [FoodUS.computeSearchRadiusMeters, hbody, if_pos hr]
      norm_num
  · intro d bbox la lo hfin
    cases bbox with
    | none => exact ⟨rfl, rfl⟩
    | some bb =>
        cases la with
        | none =>
            obtain ⟨s, w, n, e⟩ := bb
            exact ⟨rfl, rfl⟩
        | some laq =>
            cases lo with
            | none =>
                obtain ⟨s, w, n, e⟩ := bb
                exact ⟨rfl, rfl⟩
            | some loq =>
                obtain ⟨s, w, n, e⟩ := bb
                cases s <;> cases w <;> cases n <;> cases e <;>
                  simp_all [finiteInputs, Booze.computeSearchRadiusMeters,
                    FoodUS.computeSearchRadiusMeters, computeSearchRadiusWith]
  · intro d s w n e la lo
    constructor
    · rw [Booze.computeSearchRadiusMeters, hbody]
      exact hicc _
    · rw [FoodUS.computeSearchRadiusMeters, hbody]
      exact hicc _

/-- **C4 (witness)**: the amended claim at a concrete input: a constant
distance function of `6000` m on the unit box gives
`r = 6000 · 1.05 = 6300 > 0` and the clamped result. -/
theorem searchRadius_clamped_witness :
    Booze.computeSearchRadiusMeters (fun _ _ _ _ => 6000)
        (some ⟨some 0, some 0, some 1, some 1⟩) (some 0) (some 0)
      = max 2500 (min 30000 (max (max 6000 6000) (max 6000 6000)
          * (21 / 20))) :=
  (searchRadius_clamped.1 (fun _ _ _ _ => 6000) 0 0 1 1 0 0
    (by norm_num)).1

end FoodRoulette
